import Mathlib

/-!
Verification of the devclean-ai core against its specification.

The Rust sources are shallowly embedded: pure functions become Lean
functions, machine integers become `Nat`/`Int` (the `u8` risk score only
ever holds values in `[0,10]`, sums of two `u8` are computed in `u16` in
the source and hence never overflow), filesystem access becomes explicit
oracles (`String → Bool` for existence, lists of walk results for the
directory walker), and wall-clock readings become explicit parameters.
-/

namespace Devclean
/-! ## Data model (`packages/core-rs/src/types.rs`) -/

inductive RiskClass where
  | Critical
  | Active
  | Burner
deriving DecidableEq, Repr

inductive RiskSource where
  | Heuristic
  | Ai
  | Combined
deriving DecidableEq, Repr

structure RiskAssessment where
  class_name : RiskClass
  score : Nat
  reasons : List String
  source : RiskSource
deriving DecidableEq, Repr

structure ProjectMeta where
  id : String
  path : String
  name : String
  package_json_path : String
  dependency_count : Nat
  has_git : Bool
  has_env_file : Bool
  has_startup_keyword : Bool
  last_modified : Int
  last_modified_days : Int
  size_bytes : Nat
  is_cache : Bool
deriving DecidableEq, Repr

/-! ## Risk engine (`packages/core-rs/src/risk.rs`) -/

/-- Rust `str::contains` on character lists: `needle` occurs contiguously in `hay`. -/
def leadsWith : List Char → List Char → Bool
  | _, [] => true
  | [], _ :: _ => false
  | a :: as, b :: bs => a == b && leadsWith as bs

def hasSubSeq (hay needle : List Char) : Bool :=
  (List.range (hay.length + 1)).any fun i => leadsWith (hay.drop i) needle

def strContains (s pat : String) : Bool :=
  hasSubSeq s.data pat.data

/-- Rust `str::to_lowercase`, modelled as character-wise lowering (the burner and
startup hints are pure ASCII, where the two agree). -/
def strLower (s : String) : String :=
  ⟨s.data.map Char.toLower⟩

def BURNER_HINTS : List String := ["tutorial", "test", "boilerplate", "example", "sample"]

def is_burner_name (name : String) : Bool :=
  BURNER_HINTS.any fun hint => strContains (strLower name) hint

/-- Embeds `risk.rs` `clamp_score`: `score.clamp(0, 10) as u8`. -/
def clamp_score (score : Int) : Nat :=
  (min (max score 0) 10).toNat

/-- Embeds `risk.rs` `classify`. -/
def classify (score : Nat) : RiskClass :=
  if score ≥ 8 then RiskClass.Critical
  else if score ≥ 5 then RiskClass.Active
  else RiskClass.Burner

/-- One `if cond { score += delta; reasons.push(reason) }` block of `evaluate_heuristic`. -/
def adjust (cond : Bool) (delta : Int) (reason : String) (st : Int × List String) :
    Int × List String :=
  if cond then (st.1 + delta, st.2 ++ [reason]) else st

/-- Embeds `risk.rs` `evaluate_heuristic`, with its eight adjustment blocks in source order. -/
def evaluate_heuristic (project : ProjectMeta) : RiskAssessment :=
  let st0 : Int × List String := (0, [])
  let st1 := adjust project.is_cache (-4) "System cache directory" st0
  let st2 := adjust project.has_git 4 "Git history detected" st1
  let st3 := adjust project.has_env_file 3 "Environment file present" st2
  let st4 := adjust project.has_startup_keyword 3 "Startup keywords in package.json" st3
  let st5 := adjust (decide (project.last_modified_days ≤ 30)) 2 "Modified within 30 days" st4
  let st6 := adjust (decide (project.dependency_count ≥ 40)) 1 "High dependency count" st5
  let st7 := adjust (is_burner_name project.name) (-2) "Name matches tutorial/test patterns" st6
  let st8 := adjust (decide (project.last_modified_days ≥ 180)) (-1) "Inactive for 6+ months" st7
  let score := clamp_score st8.1
  { class_name := classify score
    score := score
    reasons := st8.2
    source := RiskSource.Heuristic }

/-- Embeds `risk.rs` `merge_risk`. -/
def merge_risk (heuristic : RiskAssessment) (ai : Option RiskAssessment) : RiskAssessment :=
  match ai with
  | none => heuristic
  | some ai_assessment =>
    let avg := (heuristic.score + ai_assessment.score) / 2
    let reasons := ai_assessment.reasons.foldl
      (fun acc reason => if acc.contains reason then acc else acc ++ [reason])
      heuristic.reasons
    { class_name := classify avg
      score := avg
      reasons := reasons
      source := RiskSource.Combined }

/-! ## Spec-side restatements for the risk engine -/

/-- The spec's table of adjustments: trigger, score delta, reason string, in the
spec's fixed order. -/
def heuristic_adjustments (p : ProjectMeta) : List (Bool × Int × String) :=
  [ (p.is_cache, -4, "System cache directory"),
    (p.has_git, 4, "Git history detected"),
    (p.has_env_file, 3, "Environment file present"),
    (p.has_startup_keyword, 3, "Startup keywords in package.json"),
    (decide (p.last_modified_days ≤ 30), 2, "Modified within 30 days"),
    (decide (p.dependency_count ≥ 40), 1, "High dependency count"),
    (is_burner_name p.name, -2, "Name matches tutorial/test patterns"),
    (decide (p.last_modified_days ≥ 180), -1, "Inactive for 6+ months") ]

/-- The spec's description of the heuristic: sum the triggered deltas starting
from 0, clamp to `[0,10]`, classify by thresholds, report the triggered
reasons in evaluation order. -/
def evaluate_heuristic_spec (p : ProjectMeta) : RiskAssessment :=
  let triggered := (heuristic_adjustments p).filter (fun a => a.1)
  let raw : Int := triggered.foldl (fun s a => s + a.2.1) 0
  let score := (max 0 (min 10 raw)).toNat
  { class_name :=
      if score ≥ 8 then RiskClass.Critical
      else if score ≥ 5 then RiskClass.Active
      else RiskClass.Burner
    score := score
    reasons := triggered.map (fun a => a.2.2)
    source := RiskSource.Heuristic }

/-- The spec's description of the merged reason list: the AI reasons not
already present by exact string equality, kept in first-seen order. -/
def new_ai_reasons (base : List String) : List String → List String
  | [] => []
  | r :: rest =>
    if base.contains r then new_ai_reasons base rest
    else r :: new_ai_reasons (base ++ [r]) rest

/-- The source's eight sequential adjustment blocks, seen as a single fold over
the adjustment table. -/
def heuristic_state (p : ProjectMeta) : Int × List String :=
  (heuristic_adjustments p).foldl (fun st a => adjust a.1 a.2.1 a.2.2 st) (0, [])

/-! ## Assessment cache (`packages/core-rs/src/cache.rs`)

The `HashMap<String, CacheEntry>` is embedded as an association list whose
`insert` replaces any previous binding for the key, and whose `get` finds the
binding for the key; the wall-clock timestamp taken inside
`set_cached_assessment` becomes an explicit parameter. -/

structure CacheEntry where
  hash : String
  assessment : RiskAssessment
  updated_at : Int
deriving DecidableEq, Repr

structure CacheFile where
  version : Nat
  entries : List (String × CacheEntry)
deriving DecidableEq, Repr

/-- Embeds `cache.rs` `get_cached_assessment`: the entry for `key`, filtered by exact
hash equality. -/
def get_cached_assessment (cache : CacheFile) (key hash : String) : Option RiskAssessment :=
  match cache.entries.find? (fun p => p.1 == key) with
  | none => none
  | some p => if p.2.hash == hash then some p.2.assessment else none

/-- Embeds `cache.rs` `set_cached_assessment`: `HashMap::insert`, replacing any prior
binding for `key`. -/
def set_cached_assessment (cache : CacheFile) (key hash : String)
    (assessment : RiskAssessment) (updated_at : Int) : CacheFile :=
  { cache with
    entries := (key, ⟨hash, assessment, updated_at⟩) :: cache.entries.filter (fun p => p.1 ≠ key) }

/-! ## AI assessment (`packages/core-rs/src/ai.rs`)

Only the pure tail of `ai_assess` (source lines 124–132, after the network
reply has been parsed into an `AiPayload`) is embedded; the HTTP transport and
JSON decoding are effectful and outside the model. -/

structure AiPayload where
  score : Nat
  class_name : Option String
  reasons : List String
deriving DecidableEq, Repr

/-- Embeds `ai.rs` `classify_score` (a verbatim copy of `risk.rs`'s `classify`). -/
def classify_score (score : Nat) : RiskClass :=
  if score ≥ 8 then RiskClass.Critical
  else if score ≥ 5 then RiskClass.Active
  else RiskClass.Burner

/-- The pure tail of `ai.rs` `ai_assess`: clamp the reply's score with
`.min(10)`, classify the clamped score, keep the reply's reasons, tag the
result as AI-sourced. -/
def ai_assess_payload (payload : AiPayload) : RiskAssessment :=
  let score := min payload.score 10
  { class_name := classify_score score
    score := score
    reasons := payload.reasons
    source := RiskSource.Ai }

/-! ## Delete planner (`packages/core-rs/src/delete.rs`)

Paths become strings (`Path::join` appends a separator and the component),
`Path::exists` becomes an oracle `String → Bool`, and the recursive
size measurement becomes an oracle `String → Nat` whose values are `u64`
file-size sums. -/

structure DeleteEntry where
  path : String
  is_cache : Bool
deriving DecidableEq, Repr

structure DeletePlanItem where
  path : String
  size_bytes : Nat
deriving DecidableEq, Repr

structure DeletePlan where
  items : List DeletePlanItem
  total_bytes : Nat
deriving DecidableEq, Repr

def U64_MAX : Nat := 2 ^ 64 - 1

/-- Rust `u64::saturating_add`. -/
def sat_add (a b : Nat) : Nat := min (a + b) U64_MAX

/-- The candidate target paths one entry contributes in `collect_targets`,
before the existence and dedup checks. -/
def entry_candidates (deps_only : Bool) (e : DeleteEntry) : List String :=
  if deps_only && !e.is_cache then [e.path ++ "/node_modules", e.path ++ "/.cache"]
  else [e.path]

/-- One candidate step of `collect_targets`: skip a missing path, then push it
only if `seen.insert` reports it new. State is `(targets, seen)`. -/
def add_target (fsExists : String → Bool) (st : List String × List String) (cand : String) :
    List String × List String :=
  if fsExists cand then
    if st.2.contains cand then st else (st.1 ++ [cand], st.2 ++ [cand])
  else st

/-- Embeds `delete.rs` `collect_targets`. -/
def collect_targets (fsExists : String → Bool) (entries : List DeleteEntry)
    (deps_only : Bool) : List String :=
  (entries.foldl
    (fun st e => (entry_candidates deps_only e).foldl (add_target fsExists) st)
    ([], [])).1

/-- Embeds `delete.rs` `build_delete_plan`. -/
def build_delete_plan (fsExists : String → Bool) (sizeOf : String → Nat)
    (entries : List DeleteEntry) (deps_only : Bool) : DeletePlan :=
  let targets := collect_targets fsExists entries deps_only
  { items := targets.map (fun t => ⟨t, sizeOf t⟩)
    total_bytes := targets.foldl (fun acc t => sat_add acc (sizeOf t)) 0 }

/-! ## Spec-side restatements for the delete planner -/

/-- The spec's per-entry target set: with `depsOnly` and a non-cache entry,
exactly the existing members of `{entry/node_modules, entry/.cache}` and never
the entry's own root; otherwise the entry's own path when it exists. -/
def spec_targets_of_entry (fsExists : String → Bool) (deps_only : Bool)
    (e : DeleteEntry) : List String :=
  if deps_only && !e.is_cache then
    [e.path ++ "/node_modules", e.path ++ "/.cache"].filter fsExists
  else if fsExists e.path then [e.path] else []

/-- The spec's cross-entry deduplication: by exact path string, preserving
first-seen order. -/
def dedup_first (seen : List String) : List String → List String
  | [] => []
  | x :: rest =>
    if seen.contains x then dedup_first seen rest
    else x :: dedup_first (seen ++ [x]) rest

def collect_targets_spec (fsExists : String → Bool) (entries : List DeleteEntry)
    (deps_only : Bool) : List String :=
  dedup_first [] ((entries.map (spec_targets_of_entry fsExists deps_only)).flatten)

/-- The spec's saturating total. -/
def sat_sum (sizes : List Nat) : Nat := sizes.foldl sat_add 0

/-! ## Decimal representation facts

`delete_execute` derives quarantine file names with `format!`, i.e. `Nat.repr`
decimal rendering; collision-freedom of the generated names rests on that
rendering being injective, proved here from first principles. -/

def natDigits (n : Nat) : List Nat :=
  if _h : n < 10 then [n]
  else natDigits (n / 10) ++ [n % 10]
termination_by n
decreasing_by exact Nat.div_lt_self (by omega) (by omega)

def unDigits (l : List Nat) : Nat :=
  l.foldl (fun acc d => acc * 10 + d) 0

/-! ## Delete executor (`apps/desktop/src-tauri/src/main.rs` `delete_execute`)

The filesystem is an oracle again: `existing` lists the paths that currently
exist, `isFile` distinguishes files from directories, and per-item wall-clock
seconds come from `stamps`. Performed mutations are returned as an explicit
`FsOp` trace. -/

inductive FsOp where
  | rename (src dest : String)
  | remove_file (path : String)
  | remove_dir_all (path : String)
deriving DecidableEq, Repr

structure DeleteOutcome where
  path : String
  size_bytes : Nat
  action : String
  status : String
  destination : Option String
  original_path : Option String
deriving DecidableEq, Repr

structure DeleteResponse where
  removed_count : Nat
  reclaimed_bytes : Nat
  items : List DeleteOutcome
deriving DecidableEq, Repr

/-- Embeds `main.rs` `know_action_status`. -/
def know_action_status (quarantine : Bool) : String :=
  if quarantine then "moved" else "deleted"

def action_name (quarantine : Bool) : String :=
  if quarantine then "quarantine" else "delete"

/-- The successive destination names tried for one quarantined target:
`base` is `<quarantine root>/<unixSeconds>_<originalBaseName>`, and try `k+1`
appends `_<k+1>` as `format!` renders it. -/
def quarantine_candidate (base : String) : Nat → String
  | 0 => base
  | k + 1 => base ++ "_" ++ Nat.repr (k + 1)

/-- The `while destination.exists()` search: starting at try `k`, walk forward
until a candidate is not in `existing`; `fuel` bounds the walk (and
`choose_destination` always supplies enough for the walk to finish free). -/
def find_free (existing : List String) (cand : Nat → String) : Nat → Nat → Nat
  | k, 0 => k
  | k, fuel + 1 => if existing.contains (cand k) then find_free existing cand (k + 1) fuel else k

def choose_destination (existing : List String) (base : String) : String :=
  quarantine_candidate base
    (find_free existing (quarantine_candidate base) 0 (existing.length + 1))

/-- Embeds `main.rs` `delete_execute`. One fold step per plan item, mirroring the
Rust loop; the state is `(outcomes, ops, removed, reclaimed, existing, idx)`. -/
def delete_execute (plan : DeletePlan) (dry_run quarantine : Bool) (qroot : String)
    (stamps : Nat → Nat) (nameOf : String → String) (isFile : String → Bool)
    (existing0 : List String) : DeleteResponse × List FsOp :=
  if dry_run then
    ({ removed_count := 0
       reclaimed_bytes := plan.total_bytes
       items := plan.items.map (fun item =>
         ⟨item.path, item.size_bytes, action_name quarantine, "dry-run", none, none⟩) }, [])
  else
    let final := plan.items.foldl
      (fun (st : List DeleteOutcome × List FsOp × Nat × Nat × List String × Nat) item =>
        let (outs, ops, rc, rb, existing, idx) := st
        if existing.contains item.path = false then
          (outs ++ [⟨item.path, item.size_bytes, action_name quarantine, "missing", none, none⟩],
           ops, rc, rb, existing, idx + 1)
        else if quarantine then
          let dest := choose_destination existing
            (qroot ++ "/" ++ Nat.repr (stamps idx) ++ "_" ++ nameOf item.path)
          (outs ++ [⟨item.path, item.size_bytes, action_name quarantine,
              know_action_status quarantine, some dest, some item.path⟩],
           ops ++ [FsOp.rename item.path dest],
           rc + 1, sat_add rb item.size_bytes, dest :: existing.erase item.path, idx + 1)
        else
          let op := if isFile item.path then FsOp.remove_file item.path
            else FsOp.remove_dir_all item.path
          (outs ++ [⟨item.path, item.size_bytes, action_name quarantine,
              know_action_status quarantine, none, none⟩],
           ops ++ [op], rc + 1, sat_add rb item.size_bytes,
           existing.erase item.path, idx + 1))
      ([], [], 0, 0, existing0, 0)
    ({ removed_count := final.2.2.1
       reclaimed_bytes := final.2.2.2.1
       items := final.1 }, final.2.1)

/-- The sequence of destinations chosen for successive quarantine moves: each
completed rename makes its destination exist before the next is chosen. -/
def quarantine_moves (existing : List String) : List String → List String
  | [] => []
  | base :: rest =>
    let dest := choose_destination existing base
    dest :: quarantine_moves (existing ++ [dest]) rest

/-! ## Traversal engine (`packages/core-rs/src/scanner.rs`)

The walker's output becomes an input list: `some e` is a successfully visited
entry (with its path, base name, and file flag), `none` a per-entry walk
error. Both passes see the same list, matching the re-walk with the same
filter. The `last_emit.elapsed().as_millis() >= 120` wall-clock trigger
becomes an oracle `tt` on the current `scanned_count`; manifest parsing and
metadata extraction (`read_package_json` and the record construction) become
an oracle `extract` returning `none` on the parse failures that `continue`
skips, and `scan_cache_dirs`'s filesystem probing becomes an input list of
cache-flagged records. -/

structure WalkEntry where
  path : String
  name : String
  isFile : Bool
deriving DecidableEq, Repr

/-- Embeds `types.rs` `ScanProgress` (the full four-field struct that
`scanner.rs`/`main.rs` construct). -/
structure ScanProgress where
  found_count : Nat
  current_path : String
  scanned_count : Nat
  total_count : Option Nat
deriving DecidableEq, Repr

structure ScanResult where
  projects : List ProjectMeta
  total_entries : Nat
  skipped_entries : Nat
deriving DecidableEq, Repr

/-- The counting pass: every `Ok` entry increments `total_entries`, every
walk error increments `skipped_entries`. -/
def count_pass (walk : List (Option WalkEntry)) : Nat × Nat :=
  walk.foldl
    (fun acc e => match e with
      | some _ => (acc.1 + 1, acc.2)
      | none => (acc.1, acc.2 + 1))
    (0, 0)

def is_manifest (e : WalkEntry) : Bool :=
  e.isFile && e.name == "package.json"

def found_total (entries : List WalkEntry) : Nat :=
  (entries.filter is_manifest).length

/-- The work pass of `scan_projects`: per visited entry bump
`scanned_count`, count a found manifest, and emit a progress event when the
wall-clock trigger fires or `scanned_count` is a multiple of 200. Returns the
emitted events and the final `found_count`/`scanned_count`. -/
def work_pass (total : Nat) (tt : Nat → Bool) :
    List WalkEntry → Nat → Nat → List ScanProgress × Nat × Nat
  | [], found, scanned => ([], found, scanned)
  | e :: rest, found, scanned =>
    let found' := if is_manifest e then found + 1 else found
    let rest_result := work_pass total tt rest found' (scanned + 1)
    ((if tt (scanned + 1) || (scanned + 1) % 200 == 0
        then [⟨found', e.path, scanned + 1, some total⟩] else []) ++ rest_result.1,
     rest_result.2)

/-- All progress events of one scan: the work pass events followed by the
guaranteed final event carrying the completed counts and the root path. -/
def scan_emits (root : String) (walk : List (Option WalkEntry)) (tt : Nat → Bool) :
    List ScanProgress :=
  let total := (count_pass walk).1
  let wp := work_pass total tt (walk.filterMap id) 0 0
  wp.1 ++ [⟨wp.2.1, root, wp.2.2, some total⟩]

def path_le (a b : ProjectMeta) : Prop := a.path ≤ b.path

instance : DecidableRel path_le := fun a b => inferInstanceAs (Decidable (a.path ≤ b.path))

instance : IsTotal ProjectMeta path_le := ⟨fun a b => le_total a.path b.path⟩

instance : IsTrans ProjectMeta path_le := ⟨fun _ _ _ hab hbc => le_trans hab hbc⟩

/-- Embeds `scanner.rs` `scan_projects`: count, walk emitting progress, build the
manifest-derived records in discovery order, append the cache records when
asked, and sort everything by path (`sort_by` on `path.cmp`, modelled as a
stable comparison sort). -/
def scan_projects (root : String) (walk : List (Option WalkEntry)) (tt : Nat → Bool)
    (extract : String → Option ProjectMeta) (scan_caches : Bool)
    (cache_projects : List ProjectMeta) : ScanResult × List ScanProgress :=
  ({ projects := List.insertionSort path_le
       (((((walk.filterMap id).filter is_manifest).map (fun e => e.path)).filterMap extract)
         ++ (if scan_caches then cache_projects else []))
     total_entries := (count_pass walk).1
     skipped_entries := (count_pass walk).2 },
   scan_emits root walk tt)

/-! ## GUI command layer (`apps/desktop/src-tauri/src/main.rs` `scan_start`)

`scan_start` validates the request before running the scan: a missing root is
a fatal error, as is enabling AI without an API key. -/

def scan_start (rootExists ai_enabled : Bool) (api_key : Option String) (root : String)
    (walk : List (Option WalkEntry)) (tt : Nat → Bool)
    (extract : String → Option ProjectMeta) (scan_caches : Bool)
    (cache_projects : List ProjectMeta) :
    Except String (ScanResult × List ScanProgress) :=
  if !rootExists then Except.error ("Root path not found: " ++ root)
  else if ai_enabled && api_key.isNone then
    Except.error "Gemini API key missing. Add it in Settings or disable AI."
  else Except.ok (scan_projects root walk tt extract scan_caches cache_projects)

def exceptIsOk {ε α : Type} : Except ε α → Bool
  | Except.ok _ => true
  | Except.error _ => false

/-! ## Theorems -/
/-! ## Risk engine lemmas -/

theorem foldl_add_shift (l : List (Bool × Int × String)) (x : Int) :
    l.foldl (fun s a => s + a.2.1) x = x + l.foldl (fun s a => s + a.2.1) 0 := by
  induction l generalizing x with
  | nil => simp
  | cons a l ih =>
    simp only [List.foldl_cons]
    rw [ih (x + a.2.1), ih (0 + a.2.1)]
    ring

theorem adjust_foldl (l : List (Bool × Int × String)) (s : Int) (rs : List String) :
    l.foldl (fun st a => adjust a.1 a.2.1 a.2.2 st) (s, rs)
      = (s + (l.filter (fun a => a.1)).foldl (fun x a => x + a.2.1) 0,
         rs ++ (l.filter (fun a => a.1)).map (fun a => a.2.2)) := by
  induction l generalizing s rs with
  | nil => simp
  | cons a l ih =>
    by_cases ha : a.1 = true
    · rw [List.filter_cons_of_pos ha]
      simp only [List.foldl_cons, List.map_cons]
      rw [show adjust a.1 a.2.1 a.2.2 (s, rs) = (s + a.2.1, rs ++ [a.2.2]) by
        simp [adjust, ha]]
      rw [ih, foldl_add_shift (l.filter fun a => a.1) (0 + a.2.1)]
      simp only [Prod.mk.injEq]
      refine ⟨by ring, by simp⟩
    · have ha' : a.1 = false := by simpa using ha
      rw [List.filter_cons_of_neg (by simp [ha'])]
      simp only [List.foldl_cons]
      rw [show adjust a.1 a.2.1 a.2.2 (s, rs) = (s, rs) by simp [adjust, ha']]
      exact ih s rs

theorem clamp_score_eq (x : Int) : clamp_score x = (max 0 (min 10 x)).toNat := by
  unfold clamp_score
  omega

theorem evaluate_heuristic_as_fold (p : ProjectMeta) :
    evaluate_heuristic p =
      { class_name := classify (clamp_score (heuristic_state p).1)
        score := clamp_score (heuristic_state p).1
        reasons := (heuristic_state p).2
        source := RiskSource.Heuristic } := rfl

/-- C1: `evaluate_heuristic` computes exactly the spec's adjustment table in
order, clamps the summed score to `[0,10]`, classifies by the thresholds, and
reports the triggered reasons in evaluation order with source `Heuristic`. -/
theorem evaluate_heuristic_matches_spec (p : ProjectMeta) :
    evaluate_heuristic p = evaluate_heuristic_spec p := by
  have h : heuristic_state p
      = (0 + ((heuristic_adjustments p).filter (fun a => a.1)).foldl (fun x a => x + a.2.1) 0,
         [] ++ ((heuristic_adjustments p).filter (fun a => a.1)).map (fun a => a.2.2)) :=
    adjust_foldl (heuristic_adjustments p) 0 []
  rw [evaluate_heuristic_as_fold, h]
  unfold evaluate_heuristic_spec
  simp [classify, clamp_score_eq]

theorem merge_reasons_foldl (l base : List String) :
    l.foldl (fun acc reason => if acc.contains reason then acc else acc ++ [reason]) base
      = base ++ new_ai_reasons base l := by
  induction l generalizing base with
  | nil => simp [new_ai_reasons]
  | cons r rest ih =>
    by_cases hc : base.contains r = true
    · simp only [List.foldl_cons, hc, if_true, new_ai_reasons]
      rw [ih]
    · have hc' : base.contains r = false := by simpa using hc
      simp only [List.foldl_cons, hc', Bool.false_eq_true, if_false, new_ai_reasons]
      rw [ih (base ++ [r])]
      simp

/-- C2: merging with no AI assessment is the identity; merging with an AI
assessment floor-averages the scores, reclassifies from the averaged score by
the standard thresholds, appends the AI reasons not already present (exact
string equality, first-seen order) after the heuristic reasons, and marks the
source `Combined`. -/
theorem merge_risk_matches_spec (h a : RiskAssessment) :
    merge_risk h none = h ∧
    (merge_risk h (some a)).score = (h.score + a.score) / 2 ∧
    (merge_risk h (some a)).class_name =
      (if (h.score + a.score) / 2 ≥ 8 then RiskClass.Critical
       else if (h.score + a.score) / 2 ≥ 5 then RiskClass.Active
       else RiskClass.Burner) ∧
    (merge_risk h (some a)).reasons = h.reasons ++ new_ai_reasons h.reasons a.reasons ∧
    (merge_risk h (some a)).source = RiskSource.Combined := by
  refine ⟨rfl, rfl, ?_, ?_, rfl⟩
  · simp [merge_risk, classify]
  · simp only [merge_risk]
    exact merge_reasons_foldl a.reasons h.reasons

/-- C3: storing then looking up with the identical hash returns the stored
assessment; the store overwrites the prior entry for that id (a different
hash now misses); a lookup yields a value only when the entry stored under
the id has exactly the queried hash, and an absent key or mismatched hash
yields `none`. -/
theorem cache_store_lookup_spec (cache : CacheFile) (id hash h2 : String)
    (a : RiskAssessment) (t : Int) (hne : h2 ≠ hash) :
    get_cached_assessment (set_cached_assessment cache id hash a t) id hash = some a ∧
    get_cached_assessment (set_cached_assessment cache id hash a t) id h2 = none ∧
    (∀ r, get_cached_assessment cache id h2 = some r →
      ∃ p, cache.entries.find? (fun q => q.1 == id) = some p ∧
        p.1 = id ∧ p.2.hash = h2 ∧ p.2.assessment = r) ∧
    (cache.entries.find? (fun q => q.1 == id) = none →
      get_cached_assessment cache id h2 = none) ∧
    (∀ p, cache.entries.find? (fun q => q.1 == id) = some p → p.2.hash ≠ h2 →
      get_cached_assessment cache id h2 = none) := by
  refine ⟨?_, ?_, ?_, ?_, ?_⟩
  · simp [get_cached_assessment, set_cached_assessment, List.find?]
  · simp [get_cached_assessment, set_cached_assessment, List.find?, Ne.symm hne]
  · intro r hr
    unfold get_cached_assessment at hr
    rcases hfind : cache.entries.find? (fun q => q.1 == id) with _ | p
    · rw [hfind] at hr; simp at hr
    · rw [hfind] at hr
      by_cases hh : p.2.hash == h2
      · refine ⟨p, hfind, ?_, by simpa using hh, ?_⟩
        · have := List.find?_some hfind
          simpa using this
        · simp only [hh, if_true] at hr
          simpa using hr
      · simp [hh] at hr
  · intro hnone
    simp [get_cached_assessment, hnone]
  · intro p hfind hh
    simp [get_cached_assessment, hfind, hh]

theorem cache_store_lookup_spec_witness :
    get_cached_assessment
      (set_cached_assessment ⟨1, []⟩ "a" "h1"
        ⟨RiskClass.Active, 6, ["Git history detected"], RiskSource.Ai⟩ 0) "a" "h1"
      = some ⟨RiskClass.Active, 6, ["Git history detected"], RiskSource.Ai⟩ ∧
    get_cached_assessment
      (set_cached_assessment ⟨1, []⟩ "a" "h1"
        ⟨RiskClass.Active, 6, ["Git history detected"], RiskSource.Ai⟩ 0) "a" "h2"
      = none ∧
    get_cached_assessment ⟨1, []⟩ "a" "h2" = none := by
  have h := cache_store_lookup_spec ⟨1, []⟩ "a" "h1" "h2"
    ⟨RiskClass.Active, 6, ["Git history detected"], RiskSource.Ai⟩ 0 (by decide)
  exact ⟨h.1, h.2.1, h.2.2.2.1 rfl⟩

/-- C9: the AI reply's score is clamped to at most 10, the classification is
derived solely from the clamped score by the standard thresholds (so any class
label in the reply is ignored), and the result is AI-sourced. -/
theorem ai_assess_payload_spec (payload : AiPayload) (lbl1 lbl2 : Option String) :
    (ai_assess_payload payload).score = min payload.score 10 ∧
    (ai_assess_payload payload).score ≤ 10 ∧
    (ai_assess_payload payload).class_name =
      (if min payload.score 10 ≥ 8 then RiskClass.Critical
       else if min payload.score 10 ≥ 5 then RiskClass.Active
       else RiskClass.Burner) ∧
    ai_assess_payload { payload with class_name := lbl1 }
      = ai_assess_payload { payload with class_name := lbl2 } ∧
    (ai_assess_payload payload).source = RiskSource.Ai := by
  refine ⟨rfl, Nat.min_le_right _ _, rfl, rfl, rfl⟩

theorem unDigits_shift (l : List Nat) (x : Nat) :
    l.foldl (fun acc d => acc * 10 + d) x = x * 10 ^ l.length + unDigits l := by
  induction l generalizing x with
  | nil => simp [unDigits]
  | cons d rest ih =>
    simp only [List.foldl_cons, List.length_cons, unDigits]
    rw [ih (x * 10 + d), ih (0 * 10 + d)]
    ring

theorem unDigits_natDigits (n : Nat) : unDigits (natDigits n) = n := by
  induction n using Nat.strong_induction_on with
  | _ n ih =>
    rw [natDigits]
    by_cases h : n < 10
    · simp [h, unDigits]
    · simp only [h, dite_false]
      unfold unDigits
      rw [List.foldl_append]
      have hrec := ih (n / 10) (Nat.div_lt_self (by omega) (by omega))
      unfold unDigits at hrec
      rw [hrec]
      simp only [List.foldl_cons, List.foldl_nil]
      omega

theorem natDigits_inj {m n : Nat} (h : natDigits m = natDigits n) : m = n := by
  have := congrArg unDigits h
  rwa [unDigits_natDigits, unDigits_natDigits] at this

theorem natDigits_lt (n : Nat) : ∀ d ∈ natDigits n, d < 10 := by
  induction n using Nat.strong_induction_on with
  | _ n ih =>
    rw [natDigits]
    by_cases h : n < 10
    · simp [h]
    · simp only [h, dite_false, List.mem_append, List.mem_singleton]
      intro d hd
      rcases hd with hd | hd
      · exact ih (n / 10) (Nat.div_lt_self (by omega) (by omega)) d hd
      · omega

theorem natDigits_ne_nil (n : Nat) : natDigits n ≠ [] := by
  rw [natDigits]
  by_cases h : n < 10 <;> simp [h]

theorem digitChar_inj_fin :
    ∀ a b : Fin 10, Nat.digitChar a.val = Nat.digitChar b.val → a = b := by decide

theorem digitChar_inj {a b : Nat} (ha : a < 10) (hb : b < 10)
    (h : Nat.digitChar a = Nat.digitChar b) : a = b := by
  have := digitChar_inj_fin ⟨a, ha⟩ ⟨b, hb⟩ h
  simpa [Fin.ext_iff] using this

theorem map_digitChar_inj :
    ∀ xs ys : List Nat, (∀ d ∈ xs, d < 10) → (∀ d ∈ ys, d < 10) →
      xs.map Nat.digitChar = ys.map Nat.digitChar → xs = ys
  | [], [], _, _, _ => rfl
  | [], _ :: _, _, _, h => by simp at h
  | _ :: _, [], _, _, h => by simp at h
  | x :: xs, y :: ys, hx, hy, h => by
    simp only [List.map_cons, List.cons.injEq] at h
    have hxy := digitChar_inj (hx x (by simp)) (hy y (by simp)) h.1
    have htl := map_digitChar_inj xs ys (fun d hd => hx d (by simp [hd]))
      (fun d hd => hy d (by simp [hd])) h.2
    rw [hxy, htl]

theorem toDigitsCore_eq (fuel : Nat) :
    ∀ (n : Nat) (ds : List Char), n < 10 ^ (fuel + 1) →
      Nat.toDigitsCore 10 (fuel + 1) n ds = (natDigits n).map Nat.digitChar ++ ds := by
  induction fuel with
  | zero =>
    intro n ds h
    have hn : n < 10 := by simpa using h
    have hdiv : n / 10 = 0 := Nat.div_eq_of_lt hn
    rw [natDigits]
    simp [Nat.toDigitsCore, hdiv, hn, Nat.mod_eq_of_lt hn]
  | succ fuel ih =>
    intro n ds h
    by_cases hn : n < 10
    · have hdiv : n / 10 = 0 := Nat.div_eq_of_lt hn
      rw [natDigits]
      simp [Nat.toDigitsCore, hdiv, hn, Nat.mod_eq_of_lt hn]
    · have hdiv : ¬n / 10 = 0 := by omega
      have hlt : n / 10 < 10 ^ (fuel + 1) := by
        rw [Nat.div_lt_iff_lt_mul (by omega)]
        calc n < 10 ^ (fuel + 1 + 1) := h
        _ = 10 ^ (fuel + 1) * 10 := by ring
      rw [show Nat.toDigitsCore 10 (fuel + 1 + 1) n ds
          = Nat.toDigitsCore 10 (fuel + 1) (n / 10) (Nat.digitChar (n % 10) :: ds) by
        simp [Nat.toDigitsCore, hdiv]]
      rw [ih (n / 10) (Nat.digitChar (n % 10) :: ds) hlt]
      conv_rhs => rw [natDigits]
      simp [hn]

theorem natRepr_eq (n : Nat) : Nat.repr n = ((natDigits n).map Nat.digitChar).asString := by
  unfold Nat.repr Nat.toDigits
  have hpow : n < 10 ^ (n + 1) := by
    calc n < 10 ^ n := Nat.lt_pow_self (by omega) n
    _ ≤ 10 ^ (n + 1) := Nat.pow_le_pow_right (by omega) (by omega)
  rw [toDigitsCore_eq n n [] hpow]
  simp

theorem natRepr_inj {m n : Nat} (h : Nat.repr m = Nat.repr n) : m = n := by
  rw [natRepr_eq, natRepr_eq] at h
  have hd := congrArg String.data h
  simp only [List.asString] at hd
  exact natDigits_inj
    (map_digitChar_inj _ _ (natDigits_lt m) (natDigits_lt n) hd)

theorem natRepr_length_pos (n : Nat) : 0 < (Nat.repr n).length := by
  rw [natRepr_eq]
  have := natDigits_ne_nil n
  simp only [String.length, List.asString, List.length_map]
  cases hll : natDigits n with
  | nil => exact absurd hll this
  | cons a l => simp

/-! ## Quarantine naming lemmas -/

theorem quarantine_candidate_inj (base : String) :
    Function.Injective (quarantine_candidate base) := by
  have hlen : ∀ k : Nat, (quarantine_candidate base (k + 1)).length
      = base.length + 1 + (Nat.repr (k + 1)).length := by
    intro k
    simp only [quarantine_candidate, String.length_append,
      show ("_" : String).length = 1 from rfl]
  intro i j h
  match i, j with
  | 0, 0 => rfl
  | 0, k + 1 =>
    exfalso
    have h1 := congrArg String.length h
    rw [hlen k] at h1
    simp only [quarantine_candidate] at h1
    have := natRepr_length_pos (k + 1)
    omega
  | k + 1, 0 =>
    exfalso
    have h1 := congrArg String.length h
    rw [hlen k] at h1
    simp only [quarantine_candidate] at h1
    have := natRepr_length_pos (k + 1)
    omega
  | i + 1, j + 1 =>
    have hd := congrArg String.data h
    simp only [quarantine_candidate, String.data_append, List.append_assoc] at hd
    have h2 := List.append_cancel_left hd
    have h3 := List.append_cancel_left h2
    have h4 : Nat.repr (i + 1) = Nat.repr (j + 1) := String.ext h3
    have := natRepr_inj h4
    omega

theorem str_contains_mem {l : List String} {a : String} :
    l.contains a = true ↔ a ∈ l :=
  List.elem_iff

theorem find_free_spec (existing : List String) (cand : Nat → String) :
    ∀ (fuel k : Nat),
      ((List.range' k fuel).filter (fun i => existing.contains (cand i))).length < fuel →
      existing.contains (cand (find_free existing cand k fuel)) = false := by
  intro fuel
  induction fuel with
  | zero =>
    intro k h
    simp at h
  | succ fuel ih =>
    intro k h
    by_cases hc : existing.contains (cand k) = true
    · simp only [find_free, hc, if_true]
      apply ih
      rw [List.range'_succ] at h
      simp only [List.filter_cons, hc, if_true, List.length_cons] at h
      omega
    · have hc' : existing.contains (cand k) = false := by simpa using hc
      have hnot : cand k ∉ existing := by
        intro hm
        rw [str_contains_mem.2 hm] at hc'
        cases hc'
      rw [show find_free existing cand k (fuel + 1) = k by simp [find_free, hnot]]
      exact hc'

theorem choose_destination_free (existing : List String) (base : String) :
    existing.contains (choose_destination existing base) = false := by
  unfold choose_destination
  apply find_free_spec
  set S := (List.range' 0 (existing.length + 1)).filter
    (fun i => existing.contains (quarantine_candidate base i)) with hS
  have hnodup : S.Nodup := (List.nodup_range' ..).filter _
  have hmapnodup : (S.map (quarantine_candidate base)).Nodup :=
    hnodup.map (quarantine_candidate_inj base)
  have hsub : (S.map (quarantine_candidate base)) ⊆ existing := by
    intro x hx
    rcases List.mem_map.1 hx with ⟨i, hi, rfl⟩
    exact str_contains_mem.1 (List.mem_filter.1 hi).2
  have hle := (hmapnodup.subperm hsub).length_le
  rw [List.length_map] at hle
  omega

theorem quarantine_moves_fresh (bases : List String) :
    ∀ existing : List String, ∀ d ∈ quarantine_moves existing bases, d ∉ existing := by
  induction bases with
  | nil => intro existing d hd; simp [quarantine_moves] at hd
  | cons base rest ih =>
    intro existing d hd
    simp only [quarantine_moves, List.mem_cons] at hd
    rcases hd with rfl | hd
    · intro hmem
      have hfree := choose_destination_free existing base
      rw [str_contains_mem.2 hmem] at hfree
      simp at hfree
    · have := ih (existing ++ [choose_destination existing base]) d hd
      intro hmem
      exact this (by simp [hmem])

theorem quarantine_moves_nodup (bases : List String) :
    ∀ existing : List String, (quarantine_moves existing bases).Nodup := by
  induction bases with
  | nil => intro existing; simp [quarantine_moves]
  | cons base rest ih =>
    intro existing
    simp only [quarantine_moves, List.nodup_cons]
    refine ⟨?_, ih _⟩
    intro hmem
    have := quarantine_moves_fresh rest
      (existing ++ [choose_destination existing base]) _ hmem
    simp at this

/-! ## Delete planner lemmas -/

theorem add_target_foldl (fsExists : String → Bool) (l : List String)
    (targets seen : List String) :
    l.foldl (add_target fsExists) (targets, seen)
      = (targets ++ dedup_first seen (l.filter fsExists),
         seen ++ dedup_first seen (l.filter fsExists)) := by
  induction l generalizing targets seen with
  | nil => simp [dedup_first]
  | cons c rest ih =>
    by_cases hex : fsExists c = true
    · rw [List.filter_cons_of_pos hex]
      by_cases hseen : seen.contains c = true
      · simp only [List.foldl_cons, add_target, hex, if_true, hseen, dedup_first]
        exact ih targets seen
      · have hseen' : seen.contains c = false := by simpa using hseen
        simp only [List.foldl_cons, add_target, hex, if_true, hseen', Bool.false_eq_true,
          if_false, dedup_first]
        rw [ih (targets ++ [c]) (seen ++ [c])]
        simp
    · have hex' : fsExists c = false := by simpa using hex
      rw [List.filter_cons_of_neg (by simp [hex'])]
      simp only [List.foldl_cons, add_target, hex', Bool.false_eq_true, if_false]
      exact ih targets seen

theorem dedup_first_append (xs ys seen : List String) :
    dedup_first seen (xs ++ ys)
      = dedup_first seen xs ++ dedup_first (seen ++ dedup_first seen xs) ys := by
  induction xs generalizing seen with
  | nil => simp [dedup_first]
  | cons x rest ih =>
    by_cases hseen : seen.contains x = true
    · simp only [List.cons_append, dedup_first, hseen, if_true]
      exact ih seen
    · have hseen' : seen.contains x = false := by simpa using hseen
      simp only [List.cons_append, dedup_first, hseen', Bool.false_eq_true, if_false,
        List.append_eq]
      rw [ih (seen ++ [x])]
      simp

theorem spec_targets_eq_filter (fsExists : String → Bool) (deps_only : Bool)
    (e : DeleteEntry) :
    spec_targets_of_entry fsExists deps_only e
      = (entry_candidates deps_only e).filter fsExists := by
  unfold spec_targets_of_entry entry_candidates
  by_cases hd : (deps_only && !e.is_cache) = true
  · simp [hd]
  · have hd' : (deps_only && !e.is_cache) = false := by simpa using hd
    simp only [hd', Bool.false_eq_true, if_false, List.filter]
    by_cases hex : fsExists e.path = true
    · simp [hex]
    · have hex' : fsExists e.path = false := by simpa using hex
      simp [hex']

theorem collect_targets_foldl (fsExists : String → Bool) (deps_only : Bool)
    (entries : List DeleteEntry) (t : List String) :
    entries.foldl
        (fun st e => (entry_candidates deps_only e).foldl (add_target fsExists) st) (t, t)
      = (t ++ dedup_first t
            ((entries.map (fun e => (entry_candidates deps_only e).filter fsExists)).flatten),
         t ++ dedup_first t
            ((entries.map (fun e => (entry_candidates deps_only e).filter fsExists)).flatten)) := by
  induction entries generalizing t with
  | nil => simp [dedup_first]
  | cons e rest ih =>
    simp only [List.foldl_cons, List.map_cons, List.flatten_cons]
    rw [add_target_foldl fsExists (entry_candidates deps_only e) t t]
    rw [ih (t ++ dedup_first t ((entry_candidates deps_only e).filter fsExists))]
    rw [dedup_first_append]
    simp

/-- C6: with `depsOnly` set, the plan targets are exactly the spec's
description — per non-cache entry, the existing members of
`{entry/node_modules, entry/.cache}` and never the entry's own root;
deduplicated across entries by path string in first-seen order — and the
plan total is the saturating sum of the item sizes. -/
theorem collect_targets_matches_spec (fsExists : String → Bool) (sizeOf : String → Nat)
    (entries : List DeleteEntry) :
    collect_targets fsExists entries true = collect_targets_spec fsExists entries true ∧
    (build_delete_plan fsExists sizeOf entries true).total_bytes
      = sat_sum ((build_delete_plan fsExists sizeOf entries true).items.map
          (fun it => it.size_bytes)) := by
  have hc : collect_targets fsExists entries true = collect_targets_spec fsExists entries true := by
    unfold collect_targets collect_targets_spec
    rw [collect_targets_foldl fsExists true entries []]
    simp only [List.nil_append]
    rw [List.map_congr_left fun e _ => spec_targets_eq_filter fsExists true e]
  refine ⟨hc, ?_⟩
  unfold build_delete_plan sat_sum
  simp [List.foldl_map, Function.comp]

/-! ## Traversal engine lemmas -/

theorem count_pass_eq (walk : List (Option WalkEntry)) :
    count_pass walk
      = ((walk.filter (fun e => e.isSome)).length, (walk.filter (fun e => e.isNone)).length) := by
  suffices h : ∀ a b, walk.foldl
      (fun acc e => match e with
        | some _ => (acc.1 + 1, acc.2)
        | none => (acc.1, acc.2 + 1)) (a, b)
      = (a + (walk.filter (fun e => e.isSome)).length,
         b + (walk.filter (fun e => e.isNone)).length) by
    simpa [count_pass] using h 0 0
  induction walk with
  | nil => simp
  | cons e rest ih =>
    intro a b
    cases e with
    | some w => simp [List.filter_cons, ih (a + 1) b, Nat.add_assoc, Nat.add_comm 1]
    | none => simp [List.filter_cons, ih a (b + 1), Nat.add_assoc, Nat.add_comm 1]

theorem work_pass_counts (total : Nat) (tt : Nat → Bool) :
    ∀ (l : List WalkEntry) (found scanned : Nat),
      (work_pass total tt l found scanned).2.1 = found + found_total l ∧
      (work_pass total tt l found scanned).2.2 = scanned + l.length := by
  intro l
  induction l with
  | nil => intro found scanned; simp [work_pass, found_total]
  | cons e rest ih =>
    intro found scanned
    rcases ih (if is_manifest e then found + 1 else found) (scanned + 1) with ⟨h1, h2⟩
    constructor
    · rw [show (work_pass total tt (e :: rest) found scanned).2.1
          = (work_pass total tt rest (if is_manifest e then found + 1 else found)
              (scanned + 1)).2.1 by simp [work_pass]]
      rw [h1]
      unfold found_total
      by_cases hm : is_manifest e = true
      · simp only [hm, if_true, List.filter_cons, List.length_cons]
        omega
      · have hm' : is_manifest e = false := by simpa using hm
        simp only [hm', Bool.false_eq_true, if_false, List.filter_cons]
    · rw [show (work_pass total tt (e :: rest) found scanned).2.2
          = (work_pass total tt rest (if is_manifest e then found + 1 else found)
              (scanned + 1)).2.2 by simp [work_pass]]
      rw [h2]
      simp only [List.length_cons]
      omega

theorem work_pass_total_mem (total : Nat) (tt : Nat → Bool) :
    ∀ (l : List WalkEntry) (found scanned : Nat),
      ∀ p ∈ (work_pass total tt l found scanned).1, p.total_count = some total := by
  intro l
  induction l with
  | nil => intro found scanned p hp; simp [work_pass] at hp
  | cons e rest ih =>
    intro found scanned p hp
    simp only [work_pass, List.mem_append] at hp
    rcases hp with hp | hp
    · by_cases hc : (tt (scanned + 1) || (scanned + 1) % 200 == 0) = true
      · simp only [hc, if_true, List.mem_singleton] at hp
        rw [hp]
      · have hc' : (tt (scanned + 1) || (scanned + 1) % 200 == 0) = false := by simpa using hc
        simp [hc'] at hp
    · exact ih _ _ p hp

theorem work_pass_emit_at (total : Nat) (tt : Nat → Bool) :
    ∀ (l : List WalkEntry) (found scanned k : Nat),
      scanned < k → k ≤ scanned + l.length → k % 200 = 0 →
      ∃ p ∈ (work_pass total tt l found scanned).1, p.scanned_count = k := by
  intro l
  induction l with
  | nil =>
    intro found scanned k h1 h2 h3
    simp only [List.length_nil, Nat.add_zero] at h2
    omega
  | cons e rest ih =>
    intro found scanned k h1 h2 h3
    by_cases hk : k = scanned + 1
    · subst hk
      have hcond : (tt (scanned + 1) || (scanned + 1) % 200 == 0) = true := by
        simp [h3]
      refine ⟨⟨if is_manifest e then found + 1 else found, e.path, scanned + 1, some total⟩,
        ?_, rfl⟩
      simp [work_pass, hcond]
    · have h2' : k ≤ scanned + 1 + rest.length := by
        simp only [List.length_cons] at h2
        omega
      rcases ih (if is_manifest e then found + 1 else found) (scanned + 1) k
        (by omega) h2' h3 with ⟨p, hp, hps⟩
      refine ⟨p, ?_, hps⟩
      simp only [work_pass, List.mem_append]
      exact Or.inr hp

/-- C4: every progress event of the scan carries all four fields with
`totalCount` equal to the counting pass's `totalEntries`; an event is emitted
whenever `scannedCount` is a multiple of 200 (whatever the wall-clock trigger
does); and a final event with the completed counts and the root path is always
last. -/
theorem scan_progress_matches_spec (root : String) (walk : List (Option WalkEntry))
    (tt : Nat → Bool) (extract : String → Option ProjectMeta) (scan_caches : Bool)
    (cache_projects : List ProjectMeta) :
    (∀ p ∈ (scan_projects root walk tt extract scan_caches cache_projects).2,
      p.total_count = some (count_pass walk).1) ∧
    (∀ k, 0 < k → k ≤ (walk.filterMap id).length → k % 200 = 0 →
      ∃ p ∈ (scan_projects root walk tt extract scan_caches cache_projects).2,
        p.scanned_count = k) ∧
    (scan_projects root walk tt extract scan_caches cache_projects).2.getLast?
      = some ⟨found_total (walk.filterMap id), root, (walk.filterMap id).length,
          some (count_pass walk).1⟩ := by
  have hsnd : (scan_projects root walk tt extract scan_caches cache_projects).2
      = scan_emits root walk tt := rfl
  rcases work_pass_counts (count_pass walk).1 tt (walk.filterMap id) 0 0 with ⟨hf, hs⟩
  refine ⟨?_, ?_, ?_⟩
  · intro p hp
    rw [hsnd] at hp
    unfold scan_emits at hp
    rw [List.mem_append] at hp
    rcases hp with hp | hp
    · exact work_pass_total_mem _ tt _ 0 0 p hp
    · simp only [List.mem_singleton] at hp
      rw [hp]
  · intro k hk hklen hk200
    rcases work_pass_emit_at (count_pass walk).1 tt (walk.filterMap id) 0 0 k
      hk (by omega) hk200 with ⟨p, hp, hps⟩
    refine ⟨p, ?_, hps⟩
    rw [hsnd]
    unfold scan_emits
    rw [List.mem_append]
    exact Or.inl hp
  · rw [hsnd]
    unfold scan_emits
    rw [List.getLast?_concat]
    rw [hf, hs]
    simp

set_option maxRecDepth 4000 in
theorem scan_progress_matches_spec_witness :
    ∃ p ∈ (scan_projects "r" (List.replicate 200 (some ⟨"p", "x", false⟩)) (fun _ => false)
        (fun _ => none) false []).2, p.scanned_count = 200 :=
  (scan_progress_matches_spec "r" (List.replicate 200 (some ⟨"p", "x", false⟩))
      (fun _ => false) (fun _ => none) false []).2.1 200
    (by decide) (by decide) (by decide)

/-- C10: the returned project list is sorted ascending by project path,
whatever the discovery order and whether cache records were appended. -/
theorem scan_projects_path_sorted (root : String) (walk : List (Option WalkEntry))
    (tt : Nat → Bool) (extract : String → Option ProjectMeta) (scan_caches : Bool)
    (cache_projects : List ProjectMeta) :
    List.Sorted path_le
      (scan_projects root walk tt extract scan_caches cache_projects).1.projects :=
  List.sorted_insertionSort path_le _

/-- C5 as stated is false: `scan_start` also fails with an existing root when
AI is enabled but no API key is configured. -/
theorem scan_start_fails_with_existing_root :
    scan_start true true none "r" [] (fun _ => false) (fun _ => none) false []
      = Except.error "Gemini API key missing. Add it in Settings or disable AI." := rfl

/-- C5 (amended): `scan_start` fails exactly when the root does not exist or
when AI is enabled without an API key; per-entry walk errors never fail it —
each is counted in `skippedEntries` (successes in `totalEntries`) and a result
is still returned. -/
theorem scan_start_matches_spec (rootExists ai_enabled : Bool) (api_key : Option String)
    (root : String) (walk : List (Option WalkEntry)) (tt : Nat → Bool)
    (extract : String → Option ProjectMeta) (scan_caches : Bool)
    (cache_projects : List ProjectMeta) :
    (exceptIsOk (scan_start rootExists ai_enabled api_key root walk tt extract scan_caches
        cache_projects) = false
      ↔ (rootExists = false ∨ (ai_enabled = true ∧ api_key = none))) ∧
    (∀ r emits,
      scan_start rootExists ai_enabled api_key root walk tt extract scan_caches cache_projects
        = Except.ok (r, emits) →
      r.total_entries = (walk.filter (fun e => e.isSome)).length ∧
      r.skipped_entries = (walk.filter (fun e => e.isNone)).length) := by
  constructor
  · cases rootExists with
    | false => simp [scan_start, exceptIsOk]
    | true =>
      cases ai_enabled with
      | false => simp [scan_start, exceptIsOk]
      | true =>
        cases api_key with
        | none => simp [scan_start, exceptIsOk]
        | some key => simp [scan_start, exceptIsOk]
  · intro r emits hok
    unfold scan_start at hok
    by_cases hroot : rootExists = true
    · by_cases hai : (ai_enabled && api_key.isNone) = true
      · rw [hroot] at hok
        simp [hai] at hok
      · have hai' : (ai_enabled && api_key.isNone) = false := Bool.eq_false_iff.mpr hai
        rw [hroot] at hok
        simp only [Bool.not_true, Bool.false_eq_true, if_false, hai', Except.ok.injEq] at hok
        have hr : r = (scan_projects root walk tt extract scan_caches cache_projects).1 := by
          rw [hok]
        rw [hr]
        unfold scan_projects
        rw [count_pass_eq]
        exact ⟨rfl, rfl⟩
    · have hroot' : rootExists = false := Bool.eq_false_iff.mpr hroot
      rw [hroot'] at hok
      simp at hok

theorem scan_start_matches_spec_witness :
    (exceptIsOk (scan_start false false none "r" [] (fun _ => false) (fun _ => none) false [])
        = false
      ↔ ((false : Bool) = false ∨ ((false : Bool) = true ∧ (none : Option String) = none))) ∧
    (({ projects := [], total_entries := 1, skipped_entries := 1 } : ScanResult).total_entries
        = ([some (⟨"p", "x", false⟩ : WalkEntry), none].filter (fun e => e.isSome)).length ∧
      ({ projects := [], total_entries := 1, skipped_entries := 1 } : ScanResult).skipped_entries
        = ([some (⟨"p", "x", false⟩ : WalkEntry), none].filter (fun e => e.isNone)).length) :=
  ⟨(scan_start_matches_spec false false none "r" [] (fun _ => false) (fun _ => none)
      false []).1,
   (scan_start_matches_spec true false none "r" [some ⟨"p", "x", false⟩, none] (fun _ => false)
      (fun _ => none) false []).2
     { projects := [], total_entries := 1, skipped_entries := 1 }
     [⟨0, "r", 1, some 1⟩] rfl⟩

example :
    evaluate_heuristic
      ⟨"/p", "/p", "proj", "/p/package.json", 0, true, false, false, 0, 5, 0, false⟩
      = ⟨RiskClass.Active, 6, ["Git history detected", "Modified within 30 days"],
         RiskSource.Heuristic⟩ := by rfl

example :
    evaluate_heuristic
      ⟨"/c", "/c", "cache", "", 0, false, false, false, 0, 100, 0, true⟩
      = ⟨RiskClass.Burner, 0, ["System cache directory"], RiskSource.Heuristic⟩ := by rfl

example :
    (evaluate_heuristic
      ⟨"/p", "/p", "my-tutorial-app", "/p/package.json", 0, true, true, false, 0, 200, 0,
        false⟩).score = 4 := by rfl

example : (merge_risk ⟨RiskClass.Active, 7, ["a"], RiskSource.Heuristic⟩
    (some ⟨RiskClass.Burner, 4, ["b", "a"], RiskSource.Ai⟩)).reasons = ["a", "b"] := by rfl

example : (merge_risk ⟨RiskClass.Active, 7, ["a"], RiskSource.Heuristic⟩
    (some ⟨RiskClass.Burner, 4, ["b"], RiskSource.Ai⟩)).score = 5 := by rfl

/-- C7: executing a plan with `dryRun` performs no filesystem mutation, gives
every item the status `dry-run`, and reports `removedCount = 0` with
`reclaimedBytes` equal to the plan's total. -/
theorem delete_execute_dry_run (plan : DeletePlan) (quarantine : Bool) (qroot : String)
    (stamps : Nat → Nat) (nameOf : String → String) (isFile : String → Bool)
    (existing0 : List String) :
    (delete_execute plan true quarantine qroot stamps nameOf isFile existing0).2 = [] ∧
    (delete_execute plan true quarantine qroot stamps nameOf isFile existing0).1.removed_count
      = 0 ∧
    (delete_execute plan true quarantine qroot stamps nameOf isFile existing0).1.reclaimed_bytes
      = plan.total_bytes ∧
    (delete_execute plan true quarantine qroot stamps nameOf isFile existing0).1.items
      = plan.items.map (fun item =>
          ⟨item.path, item.size_bytes, action_name quarantine, "dry-run", none, none⟩) :=
  ⟨rfl, rfl, rfl, rfl⟩

/-- C8: a quarantine destination is chosen collision-free — the base name
`<unixSeconds>_<originalBaseName>` when it is unused, else the first free
numeric-suffix variant — so the chosen destination never already exists, and
successive moves (each making its destination exist) never share one. -/
theorem quarantine_destination_spec (existing : List String) (base : String)
    (bases : List String) :
    choose_destination existing base ∉ existing ∧
    (existing.contains base = false → choose_destination existing base = base) ∧
    (∀ d ∈ quarantine_moves existing bases, d ∉ existing) ∧
    (quarantine_moves existing bases).Nodup := by
  refine ⟨?_, ?_, quarantine_moves_fresh bases existing, quarantine_moves_nodup bases existing⟩
  · intro hmem
    have hfree := choose_destination_free existing base
    rw [str_contains_mem.2 hmem] at hfree
    cases hfree
  · intro hb
    have hnot : base ∉ existing := by
      intro hm
      rw [str_contains_mem.2 hm] at hb
      cases hb
    unfold choose_destination
    rw [show find_free existing (quarantine_candidate base) 0 (existing.length + 1) = 0
      by simp [find_free, quarantine_candidate, hnot]]
    rfl

theorem quarantine_destination_spec_witness :
    choose_destination ["1700_foo"] "1700_foo" ∉ ["1700_foo"] ∧
    choose_destination [] "1700_foo" = "1700_foo" ∧
    (quarantine_moves [] ["1700_foo", "1700_foo"]).Nodup :=
  ⟨(quarantine_destination_spec ["1700_foo"] "1700_foo" []).1,
   (quarantine_destination_spec [] "1700_foo" []).2.1 rfl,
   (quarantine_destination_spec [] "1700_foo" ["1700_foo", "1700_foo"]).2.2.2⟩

-- scratch: spec scenario 5, two same-second same-name targets
example : quarantine_moves [] ["1700_foo", "1700_foo"] = ["1700_foo", "1700_foo_1"] := by rfl

end Devclean
